import Mathlib

/-!
Shallow embedding of the microglia image-analysis pipeline
(`src/main.cpp` of guptask/microglia_project_cchmc).

Conventions of the embedding:
* OpenCV primitives (`contourArea`, `arcLength`, `drawContours`,
  `findContours`, `GaussianBlur`) are external collaborators; their
  *results* appear as fields / parameters of the model (a contour carries
  the perimeter returned by `arcLength` and the pixel set produced by
  rasterizing it alone with `drawContours`).
* `double`/`float` values are modelled as exact rationals `ℚ`.  The one
  place where IEEE semantics matters is noted at `coverageToOther`.
* Machine integers that cannot overflow on the inputs at hand are `Nat`;
  the OpenCV RNG state is modelled with explicit `% 2^32` / `% 2^64`.
-/

namespace Microglia

/-- A pixel coordinate (`cv::Point`). -/
abbrev Pix := Int × Int

/-- `HierarchyType` enum of the source. -/
inductive HierarchyType where
  | INVALID_CNTR
  | CHILD_CNTR
  | PARENT_CNTR
deriving DecidableEq

/-!  ## Overlap classifier (`classifyMicroglialCells` / `classifyNeuralCells`)  -/

/-- A candidate contour, bundling the contour's point list with the results
of the two external OpenCV primitives the classifier applies to it:
`perim` is `arcLength(contour, true)` and `raster` is the set of foreground
pixels produced by `drawContours` of this single contour, filled, into a
fresh zero mask (empty when every point lies outside the mask rectangle). -/
structure Cntr where
  points : List Pix
  perim : ℚ
  raster : Finset Pix
deriving DecidableEq

/-- The small-contour test of lines 203/232:
`(arcLength(c, true) < 10) || (c.size() < 5)`. -/
def smallCntr (c : Cntr) : Bool :=
  decide (c.perim < 10) || decide (c.points.length < 5)

/-- The branch condition `coverage_ratio < thr` of lines 215/244, where
`coverage_ratio = (float)countNonZero(drawing AND mask) / countNonZero(drawing)`.
When `countNonZero(drawing) = 0` the C++ float quotient is `0.0f/0.0f = NaN`
and an IEEE comparison `NaN < thr` is false, so the source takes the else
branch; the conjunct `c.raster.card ≠ 0` reproduces exactly that. -/
def coverageToOther (thr : ℚ) (mask : Finset Pix) (c : Cntr) : Bool :=
  decide (c.raster.card ≠ 0) &&
    decide ((((c.raster ∩ mask).card : ℚ) / (c.raster.card : ℚ)) < thr)

/-- The common loop body of `classifyMicroglialCells` (lines 200-220) and
`classifyNeuralCells` (lines 229-249); the two functions differ only in the
threshold compared against the coverage ratio.  Returns
(target-type bucket, other bucket); `push_back` order is preserved. -/
def classifyCells (thr : ℚ) (mask : Finset Pix) : List Cntr → List Cntr × List Cntr
  | [] => ([], [])
  | c :: rest =>
    let acc := classifyCells thr mask rest
    if smallCntr c then acc
    else if coverageToOther thr mask c then (acc.1, c :: acc.2)
    else (c :: acc.1, acc.2)

/-- `classifyMicroglialCells`: threshold `0.30` (lines 195-221). -/
def classifyMicroglialCells (blue_contours : List Cntr)
    (blue_red_intersection : Finset Pix) : List Cntr × List Cntr :=
  classifyCells (3/10) blue_red_intersection blue_contours

/-- `classifyNeuralCells`: threshold `0.20` (lines 224-250). -/
def classifyNeuralCells (blue_contours : List Cntr)
    (blue_green_intersection : Finset Pix) : List Cntr × List Cntr :=
  classifyCells (1/5) blue_green_intersection blue_contours

/-!  ## Area histogram (`binArea`, lines 253-272)  -/

/-- C `round()`: round half away from zero. -/
def roundHalfAway (q : ℚ) : Int :=
  if 0 ≤ q then ⌊q + 1/2⌋ else ⌈q - 1/2⌉

/-- The bin index computed at lines 262-264:
`area = (unsigned)round(a)`, then `area/BIN_AREA` clamped to the last of the
`NUM_AREA_BINS = 21` bins of width `BIN_AREA = 25`.  (`Int.toNat` models the
unsigned cast; the stored areas this is applied to are nonnegative.) -/
def binIdx (a : ℚ) : Nat :=
  if (roundHalfAway a).toNat / 25 < 21 then (roundHalfAway a).toNat / 25 else 20

/-- One iteration of the first loop of `binArea` (lines 260-266). -/
def binStep (contour_mask : List HierarchyType) (contour_area : List ℚ)
    (cnt : List Nat) (i : Nat) : List Nat :=
  if contour_mask.getD i .INVALID_CNTR ≠ .PARENT_CNTR then cnt
  else
    let b := binIdx (contour_area.getD i 0)
    cnt.set b (cnt.getD b 0 + 1)

/-- `binArea` (lines 253-272): returns the 21 bin counters and the total
count accumulated by the second loop (the CSV string built alongside the
total is external formatting and is not modelled). -/
def binArea (contour_mask : List HierarchyType) (contour_area : List ℚ) :
    List Nat × Nat :=
  let count := (List.range contour_mask.length).foldl
    (binStep contour_mask contour_area) (List.replicate 21 0)
  (count, count.sum)

/-!  ## Channel enhancer (`enhanceImage`, lines 38-124)  -/

/-- A single-channel 8-bit intensity image: pixel coordinate to sample. -/
abbrev Img := Nat × Nat → Nat

/-- `cv::threshold(src, dst, t, 255, THRESH_TOZERO)`:
keep samples strictly above `t`, zero the rest. -/
def thresholdToZero (t : Nat) (img : Img) : Img :=
  fun p => if t < img p then img p else 0

/-- `cv::threshold(src, dst, t, 255, THRESH_TOZERO_INV)`:
zero samples strictly above `t`, keep the rest. -/
def thresholdToZeroInv (t : Nat) (img : Img) : Img :=
  fun p => if t < img p then 0 else img p

/-- `cv::threshold(src, dst, t, 255, THRESH_BINARY)`. -/
def thresholdBinary (t : Nat) (img : Img) : Img :=
  fun p => if t < img p then 255 else 0

/-- `cv::bitwise_not` on 8-bit samples. -/
def bitwiseNot (img : Img) : Img :=
  fun p => 255 - img p

/-- `cv::bitwise_and`, samplewise. -/
def bitwiseAnd (a b : Img) : Img :=
  fun p => Nat.land (a p) (b p)

/-- `enhanceImage` (lines 38-124).  The channel specifier is the underlying
`unsigned char` of the `ChannelType` enum class (`BLUE = 0`, `GREEN = 1`,
`RED = 2`, `RED_LOW = 3`, `RED_HIGH = 4`); any other byte value falls into
the `default` case.  `gaussianBlur` is the external `cv::GaussianBlur`
3x3 primitive, passed in as a collaborator.  The C++ out-parameter/bool
protocol is modelled by `Option`: `some mask` is `*dst = enhanced; return
true`, and `none` is the `default` branch `return false` with `*dst` left
unwritten. -/
def enhanceImage (gaussianBlur : Img → Img) (src : Img) (channel_type : Nat) :
    Option Img :=
  match channel_type with
  | 0 =>
    some (bitwiseNot (thresholdBinary 150
      (gaussianBlur (bitwiseNot (thresholdToZero 10 src)))))
  | 1 =>
    some (bitwiseNot (thresholdBinary 240
      (gaussianBlur (bitwiseNot (thresholdToZero 10 src)))))
  | 2 =>
    some (bitwiseNot (thresholdBinary 250
      (gaussianBlur (bitwiseNot (thresholdToZero 5 src)))))
  | 3 =>
    some (thresholdBinary 1 (thresholdToZeroInv 250
      (bitwiseAnd (gaussianBlur src)
        (thresholdBinary 250 (gaussianBlur (bitwiseNot (thresholdToZero 50 src)))))))
  | 4 =>
    some (bitwiseNot (thresholdBinary 250
      (gaussianBlur (bitwiseNot (thresholdToZero 50 src)))))
  | _ => none

/-!  ## Hierarchical contour extractor (`contourCalc`, lines 127-192)

`findContours` is the external extraction primitive; its outputs are the
model's inputs: `areas` holds the signed `contourArea` value of each
contour (line 163/173 applies `fabs`), and `hier` holds the `cv::Vec4i`
hierarchy records `[next, prev, child, parent]`.  The labeling loop of
lines 159-191 is embedded as a fold over ascending contour indices. -/

/-- One `cv::Vec4i` hierarchy record: links to the next sibling, previous
sibling, first child (hole), and parent, with `-1` for "none". -/
structure Vec4 where
  next : Int
  prev : Int
  child : Int
  parent : Int
deriving DecidableEq

/-- Hierarchy lookup; the default is never reached on well-formed input. -/
def hget (hier : List Vec4) (i : Nat) : Vec4 :=
  hier.getD i ⟨-1, -1, -1, -1⟩

/-- `fabs(contourArea(contours[i]))` (lines 163 and 173). -/
def areaAt (areas : List ℚ) (i : Nat) : ℚ :=
  |areas.getD i 0|

/-- The hole walk of lines 169-179: follow the `next` links starting from
a parent's first child, collecting every hole of nonzero area and summing
those areas.  The C++ `while (index_hole > -1)` loop is given
`hier.length` steps of fuel; on the acyclic hierarchies produced by
`findContours` (captured by `hierWf` below) the walk always reaches `-1`
before the fuel runs out, so the fuel is unobservable. -/
def holeWalk (areas : List ℚ) (hier : List Vec4) : Nat → Int → List Nat × ℚ
  | 0, _ => ([], 0)
  | fuel + 1, index_hole =>
    if -1 < index_hole then
      let i := index_hole.toNat
      let temp_area_hole := areaAt areas i
      let rest := holeWalk areas hier fuel (hget hier i).next
      if temp_area_hole ≠ 0 then (i :: rest.1, temp_area_hole + rest.2) else rest
    else ([], 0)

/-- One step of the OpenCV multiply-with-carry RNG:
`state = (uint)state * 4164903690 + (state >> 32)` on a 64-bit state. -/
def rngNext (state : Nat) : Nat :=
  ((state % 4294967296) * 4164903690 + state / 4294967296) % 18446744073709551616

/-- `rng.uniform(0, 255)`: advance the state and reduce the low 32 bits
of the new state modulo 255. -/
def rngUniform255 (state : Nat) : Nat × Nat :=
  let s := rngNext state
  (s % 4294967296 % 255, s)

/-- The `cv::Scalar(rng.uniform(0,255), rng.uniform(0,255),
rng.uniform(0,255))` of lines 187-188, drawing the three components in
argument order. -/
def drawColor (state : Nat) : (Nat × Nat × Nat) × Nat :=
  let b := rngUniform255 state
  let g := rngUniform255 b.2
  let r := rngUniform255 g.2
  ((b.1, g.1, r.1), r.2)

/-- The mutable state of the `contourCalc` loop: the validity mask and
parent-area vectors (assigned at lines 155-156), the RNG state, and the
sequence of fill colors passed to `drawContours` for accepted parents
(the debug rendering itself is the external `drawContours` primitive; the
deterministic color sequence is what the model tracks). -/
structure CCState where
  validity_mask : List HierarchyType
  parent_area : List ℚ
  rng_state : Nat
  colors : List (Nat × Nat × Nat)
deriving DecidableEq

/-- Lines 184-186: label every collected hole `CHILD_CNTR`. -/
def setChildren (holes : List Nat) (v : List HierarchyType) : List HierarchyType :=
  holes.foldl (fun w j => w.set j .CHILD_CNTR) v

/-- Lines 182-189, executed when `area_contour >= min_area`: label
`cntr_list[0] = index` as parent, store its net area, label the collected
holes (`cntr_list[1..]`, here the first component of the hole walk) as
children, and draw one random color for the debug rendering. -/
def acceptState (areas : List ℚ) (hier : List Vec4)
    (st : CCState) (index : Nat) : CCState :=
  { validity_mask :=
      setChildren (holeWalk areas hier hier.length (hget hier index).child).1
        (st.validity_mask.set index .PARENT_CNTR),
    parent_area :=
      st.parent_area.set index
        (areaAt areas index
          - (holeWalk areas hier hier.length (hget hier index).child).2),
    rng_state := (drawColor st.rng_state).2,
    colors := st.colors ++ [(drawColor st.rng_state).1] }

/-- The body of the `for (index ...)` loop of lines 160-191:
skip children (`hierarchy[index][3] > -1`, line 161), skip externals whose
outer area `area_external` is below `min_area` (line 164), and otherwise
accept when the net area `area_contour = area_external - area_hole`
(line 180) still reaches `min_area`. -/
def contourStep (min_area : ℚ) (areas : List ℚ) (hier : List Vec4)
    (st : CCState) (index : Nat) : CCState :=
  if -1 < (hget hier index).parent then st
  else if areaAt areas index < min_area then st
  else if min_area ≤
      areaAt areas index
        - (holeWalk areas hier hier.length (hget hier index).child).2 then
    acceptState areas hier st index
  else st

/-- Initial loop state: both vectors filled with `INVALID_CNTR` / `0.0`
(lines 155-156) and the RNG freshly seeded with 12345 (line 159). -/
def initState (n : Nat) : CCState :=
  { validity_mask := List.replicate n .INVALID_CNTR,
    parent_area := List.replicate n 0,
    rng_state := 12345,
    colors := [] }

/-- The labeling phase of `contourCalc` (lines 153-191), iterating over
ascending contour indices. -/
def contourCalc (min_area : ℚ) (areas : List ℚ) (hier : List Vec4) : CCState :=
  (List.range areas.length).foldl (contourStep min_area areas hier)
    (initState areas.length)

/-- State after the first `k` loop iterations. -/
def stateAfter (min_area : ℚ) (areas : List ℚ) (hier : List Vec4) (k : Nat) : CCState :=
  (List.range k).foldl (contourStep min_area areas hier) (initState areas.length)

/-- Declarative sibling chain: the indices visited by following `next`
links from `index_hole`, or `none` when `-1` is not reached within the
fuel (a cyclic hierarchy, on which the C++ loop would not terminate). -/
def chainOpt (hier : List Vec4) : Nat → Int → Option (List Nat)
  | 0, index_hole => if -1 < index_hole then none else some []
  | fuel + 1, index_hole =>
    if -1 < index_hole then
      (chainOpt hier fuel (hget hier index_hole.toNat).next).map
        (index_hole.toNat :: ·)
    else some []

/-- The list of immediate holes of contour `i`: the sibling chain starting
at `i`'s first child. -/
def chainOf (hier : List Vec4) (i : Nat) : List Nat :=
  (chainOpt hier hier.length (hget hier i).child).getD []

/-- The holes of nonzero area among a hole list (the `if (temp_area_hole)`
test of line 174). -/
def nzHoles (areas : List ℚ) (l : List Nat) : List Nat :=
  l.filter (fun j => decide (areaAt areas j ≠ 0))

/-- Total area of the nonzero-area holes in a hole list. -/
def holeAreaSum (areas : List ℚ) (l : List Nat) : ℚ :=
  ((nzHoles areas l).map (areaAt areas)).sum

/-- Net area of external contour `i`: outer area minus the summed areas of
its immediate nonzero-area holes. -/
def netArea (areas : List ℚ) (hier : List Vec4) (i : Nat) : ℚ :=
  areaAt areas i - holeAreaSum areas (chainOf hier i)

/-- Line 161: an external (top-level) contour has parent link `-1`. -/
def isExternalCntr (hier : List Vec4) (i : Nat) : Bool :=
  !decide (-1 < (hget hier i).parent)

/-- Declarative acceptance: external, outer area at least `min_area`, and
net area still at least `min_area`. -/
def acceptedCntr (min_area : ℚ) (areas : List ℚ) (hier : List Vec4) (i : Nat) : Bool :=
  isExternalCntr hier i
    && !decide (areaAt areas i < min_area)
    && decide (min_area ≤ netArea areas hier i)

/-- Acceptance exactly as the loop computes it, with the hole-area total
taken from the fueled walk (equal to `acceptedCntr` on well-formed
hierarchies, see `acceptedRun_eq_acceptedCntr`). -/
def acceptedRun (min_area : ℚ) (areas : List ℚ) (hier : List Vec4) (index : Nat) : Bool :=
  isExternalCntr hier index
    && !decide (areaAt areas index < min_area)
    && decide (min_area ≤
        areaAt areas index
          - (holeWalk areas hier hier.length (hget hier index).child).2)

/-- Well-formedness of one contour's hole chain: the chain terminates,
visits no index twice, stays in range, and consists of contours whose
parent link points back to `i` — all guaranteed for the hierarchies
`findContours` returns with `RETR_CCOMP`. -/
def wfAt (areas : List ℚ) (hier : List Vec4) (i : Nat) : Bool :=
  match chainOpt hier hier.length (hget hier i).child with
  | none => false
  | some l =>
    decide l.Nodup
      && l.all (fun j => decide (j < areas.length)
          && decide ((hget hier j).parent = (i : Int)))

/-- Well-formedness of a `findContours` result: matching vector lengths
and a well-formed hole chain at every index. -/
def hierWf (areas : List ℚ) (hier : List Vec4) : Bool :=
  decide (hier.length = areas.length)
    && (List.range areas.length).all (wfAt areas hier)

/-- The pure color stream: the colors produced by `k` successive
`cv::Scalar(uniform, uniform, uniform)` draws from a given RNG state. -/
def colorStream (state : Nat) : Nat → List (Nat × Nat × Nat)
  | 0 => []
  | k + 1 => (drawColor state).1 :: colorStream (drawColor state).2 k

/-- RNG state after `k` color draws. -/
def streamState (state : Nat) : Nat → Nat
  | 0 => state
  | k + 1 => streamState (drawColor state).2 k

/-- A contour with 4 points and perimeter 4, rasterizing to a unit square
that is fully contained in `smallMask` below. -/
def tinySquare : Cntr :=
  { points := [(0,0), (1,0), (1,1), (0,1)],
    perim := 4,
    raster := {(0,0), (1,0), (1,1), (0,1)} }

/-- An intersection mask that fully covers `tinySquare.raster`. -/
def smallMask : Finset Pix := {(0,0), (1,0), (1,1), (0,1)}

/-- A contour passing the size filter (5 points, perimeter 10) whose
points all lie outside the mask rectangle, so `drawContours` paints no
pixel: `countNonZero(drawing) = 0`. -/
def degenerateCntr : Cntr :=
  { points := [(-10,-10), (-8,-10), (-6,-10), (-6,-9), (-10,-9)],
    perim := 10,
    raster := ∅ }

end Microglia

namespace Microglia

example : (1 : ℚ) ≤ 400 := by decide

example : binIdx 100 = 4 := by with_unfolding_all decide

example : binIdx 375 = 15 := by with_unfolding_all decide

example : binIdx 1000 = 20 := by with_unfolding_all decide

/-- Both buckets of `classifyCells` are order-preserving sublists of the
input: the loop first drops contours failing the size test of line 203/232,
then routes each survivor by the coverage test of line 215/244. -/
theorem classifyCells_eq_filter (thr : ℚ) (mask : Finset Pix) (cs : List Cntr) :
    classifyCells thr mask cs =
      ((cs.filter (fun c => !smallCntr c)).filter (fun c => !coverageToOther thr mask c),
       (cs.filter (fun c => !smallCntr c)).filter (fun c => coverageToOther thr mask c)) := by
  induction cs with
  | nil => rfl
  | cons c rest ih =>
    simp only [classifyCells, ih, List.filter_cons]
    cases hs : smallCntr c
    · cases hc : coverageToOther thr mask c <;>
        simp [hs, hc, List.filter_cons]
    · simp [hs]

theorem mem_filter_pair {c : Cntr} {cs : List Cntr} {p q : Cntr → Bool} :
    c ∈ (cs.filter p).filter q ↔ c ∈ cs ∧ p c = true ∧ q c = true := by
  simp only [List.mem_filter, and_assoc]

/-- C10: each classify call partitions its size-filter-passing contours:
both buckets are order-preserving filters of the size-filtered input
(so a passing contour lands in exactly one bucket), and the bucket sizes
add up to the filtered count — which is exactly the quantity
`microglial_contours.size() + other_contours.size()` written as the
"total nuclei count" metrics column at lines 487-489. -/
theorem classify_partitions_filtered (cs : List Cntr) (mask : Finset Pix) :
    ((classifyMicroglialCells cs mask).1 =
        (cs.filter (fun c => !smallCntr c)).filter
          (fun c => !coverageToOther (3/10) mask c)
      ∧ (classifyMicroglialCells cs mask).2 =
        (cs.filter (fun c => !smallCntr c)).filter
          (fun c => coverageToOther (3/10) mask c)
      ∧ (classifyMicroglialCells cs mask).1.length
          + (classifyMicroglialCells cs mask).2.length
        = (cs.filter (fun c => !smallCntr c)).length)
    ∧ ((classifyNeuralCells cs mask).1 =
        (cs.filter (fun c => !smallCntr c)).filter
          (fun c => !coverageToOther (1/5) mask c)
      ∧ (classifyNeuralCells cs mask).2 =
        (cs.filter (fun c => !smallCntr c)).filter
          (fun c => coverageToOther (1/5) mask c)
      ∧ (classifyNeuralCells cs mask).1.length
          + (classifyNeuralCells cs mask).2.length
        = (cs.filter (fun c => !smallCntr c)).length) := by
  have hm := classifyCells_eq_filter (3/10) mask cs
  have hn := classifyCells_eq_filter (1/5) mask cs
  have key : ∀ thr : ℚ,
      ((cs.filter (fun c => !smallCntr c)).filter
          (fun c => !coverageToOther thr mask c)).length
        + ((cs.filter (fun c => !smallCntr c)).filter
          (fun c => coverageToOther thr mask c)).length
      = (cs.filter (fun c => !smallCntr c)).length := by
    intro thr
    have := List.length_eq_length_filter_add (l := cs.filter (fun c => !smallCntr c))
      (fun c => coverageToOther thr mask c)
    omega
  refine ⟨⟨?_, ?_, ?_⟩, ⟨?_, ?_, ?_⟩⟩
  · exact congrArg Prod.fst hm
  · exact congrArg Prod.snd hm
  · rw [classifyMicroglialCells, hm]; exact key (3/10)
  · exact congrArg Prod.fst hn
  · exact congrArg Prod.snd hn
  · rw [classifyNeuralCells, hn]; exact key (1/5)

/-- C3: a size-filter-passing contour with a nonempty rasterization is
routed by comparing its coverage ratio `after/before` against the fixed
threshold (0.30 microglial, 0.20 neural): below goes to "other", at or
above goes to the target type; and a contour whose rasterization is fully
contained in the intersection mask always lands in the target bucket. -/
theorem coverage_ratio_classification (cs : List Cntr) (mask : Finset Pix) (c : Cntr)
    (hmem : c ∈ cs) (hperim : ¬ c.perim < 10) (hpts : ¬ c.points.length < 5) :
    (c.raster.card ≠ 0 →
      ((((c.raster ∩ mask).card : ℚ) / (c.raster.card : ℚ) < 3/10 →
          c ∈ (classifyMicroglialCells cs mask).2)
      ∧ ((3:ℚ)/10 ≤ ((c.raster ∩ mask).card : ℚ) / (c.raster.card : ℚ) →
          c ∈ (classifyMicroglialCells cs mask).1)
      ∧ (((c.raster ∩ mask).card : ℚ) / (c.raster.card : ℚ) < 1/5 →
          c ∈ (classifyNeuralCells cs mask).2)
      ∧ ((1:ℚ)/5 ≤ ((c.raster ∩ mask).card : ℚ) / (c.raster.card : ℚ) →
          c ∈ (classifyNeuralCells cs mask).1)))
    ∧ (c.raster ⊆ mask →
        c ∈ (classifyMicroglialCells cs mask).1 ∧ c ∈ (classifyNeuralCells cs mask).1) := by
  have hsmall : smallCntr c = false := by
    simp [smallCntr, hperim, hpts]
  have hmemf : ∀ thr : ℚ,
      (coverageToOther thr mask c = true → c ∈ (classifyCells thr mask cs).2)
      ∧ (coverageToOther thr mask c = false → c ∈ (classifyCells thr mask cs).1) := by
    intro thr
    rw [classifyCells_eq_filter]
    constructor
    · intro h
      exact mem_filter_pair.mpr ⟨hmem, by simp [hsmall], h⟩
    · intro h
      exact mem_filter_pair.mpr ⟨hmem, by simp [hsmall], by simp [h]⟩
  have hcov_true : ∀ thr : ℚ, c.raster.card ≠ 0 →
      ((c.raster ∩ mask).card : ℚ) / (c.raster.card : ℚ) < thr →
      coverageToOther thr mask c = true := by
    intro thr hzero hlt
    unfold coverageToOther
    rw [Bool.and_eq_true, decide_eq_true_eq, decide_eq_true_eq]
    exact ⟨hzero, hlt⟩
  have hcov_false : ∀ thr : ℚ,
      thr ≤ ((c.raster ∩ mask).card : ℚ) / (c.raster.card : ℚ) →
      coverageToOther thr mask c = false := by
    intro thr hge
    unfold coverageToOther
    rw [decide_eq_false (not_lt.mpr hge), Bool.and_false]
  have hcov_false_zero : ∀ thr : ℚ, c.raster.card = 0 →
      coverageToOther thr mask c = false := by
    intro thr hzero
    unfold coverageToOther
    rw [decide_eq_false (by simp [hzero]), Bool.false_and]
  constructor
  · intro hzero
    exact ⟨fun hlt => (hmemf (3/10)).1 (hcov_true (3/10) hzero hlt),
      fun hge => (hmemf (3/10)).2 (hcov_false (3/10) hge),
      fun hlt => (hmemf (1/5)).1 (hcov_true (1/5) hzero hlt),
      fun hge => (hmemf (1/5)).2 (hcov_false (1/5) hge)⟩
  · intro hsub
    have hinter : c.raster ∩ mask = c.raster := Finset.inter_eq_left.mpr hsub
    by_cases hzero : c.raster.card = 0
    · exact ⟨(hmemf (3/10)).2 (hcov_false_zero (3/10) hzero),
        (hmemf (1/5)).2 (hcov_false_zero (1/5) hzero)⟩
    · have hone : ((c.raster ∩ mask).card : ℚ) / (c.raster.card : ℚ) = 1 := by
        rw [hinter]
        exact div_self (by exact_mod_cast hzero)
      have h30 : coverageToOther (3/10) mask c = false :=
        hcov_false (3/10) (by rw [hone]; norm_num)
      have h20 : coverageToOther (1/5) mask c = false :=
        hcov_false (1/5) (by rw [hone]; norm_num)
      exact ⟨(hmemf (3/10)).2 h30, (hmemf (1/5)).2 h20⟩

/-- Witness for `coverage_ratio_classification`: `tinySquare` scaled —
a 5-point contour with perimeter 12 fully covered by `smallMask`. -/
def coveredCntr : Cntr :=
  { points := [(0,0), (1,0), (1,1), (0,1), (0,0)],
    perim := 12,
    raster := {(0,0), (1,0), (1,1), (0,1)} }

theorem coverage_ratio_classification_witness :
    coveredCntr ∈ (classifyMicroglialCells [coveredCntr] smallMask).1
    ∧ coveredCntr ∈ (classifyNeuralCells [coveredCntr] smallMask).1 :=
  (coverage_ratio_classification [coveredCntr] smallMask coveredCntr
    (by with_unfolding_all decide) (by with_unfolding_all decide)
    (by with_unfolding_all decide)).2 (by with_unfolding_all decide)

/-- C2 counterexample: `tinySquare` has perimeter 4 and 4 points, and its
rasterization is 100% covered by `smallMask`; the claim says both
classifiers place it in the "other" bucket, but the loops skip it
(`continue` at lines 203/232) so it appears in neither bucket. -/
theorem small_contour_counterexample :
    tinySquare ∉ (classifyMicroglialCells [tinySquare] smallMask).2
    ∧ tinySquare ∉ (classifyNeuralCells [tinySquare] smallMask).2 := by
  with_unfolding_all decide

/-- C2 amended: a contour failing the size filter (perimeter below 10 or
fewer than 5 points) is skipped entirely: it is placed in neither the
target bucket nor the "other" bucket of either classifier, and no coverage
ratio is computed for it. -/
theorem small_contour_skipped (cs : List Cntr) (mask : Finset Pix) (c : Cntr)
    (hsmall : c.perim < 10 ∨ c.points.length < 5) :
    c ∉ (classifyMicroglialCells cs mask).1
    ∧ c ∉ (classifyMicroglialCells cs mask).2
    ∧ c ∉ (classifyNeuralCells cs mask).1
    ∧ c ∉ (classifyNeuralCells cs mask).2 := by
  have hb : smallCntr c = true := by
    rcases hsmall with h | h <;> simp [smallCntr, h]
  have habs : ∀ thr : ℚ, ∀ p : Cntr → Bool,
      c ∉ ((cs.filter (fun x => !smallCntr x)).filter p) := by
    intro thr p hc
    have := (List.mem_filter.mp ((List.mem_filter.mp hc).1)).2
    simp [hb] at this
  rw [classifyMicroglialCells, classifyNeuralCells,
    classifyCells_eq_filter, classifyCells_eq_filter]
  exact ⟨habs (3/10) _, habs (3/10) _, habs (1/5) _, habs (1/5) _⟩

theorem small_contour_skipped_witness :
    tinySquare ∉ (classifyMicroglialCells [tinySquare] smallMask).1
    ∧ tinySquare ∉ (classifyMicroglialCells [tinySquare] smallMask).2
    ∧ tinySquare ∉ (classifyNeuralCells [tinySquare] smallMask).1
    ∧ tinySquare ∉ (classifyNeuralCells [tinySquare] smallMask).2 :=
  small_contour_skipped [tinySquare] smallMask tinySquare
    (Or.inl (by with_unfolding_all decide))

theorem getD_set_same {α : Type} (l : List α) (i : Nat) (x d : α) (h : i < l.length) :
    (l.set i x).getD i d = x := by
  induction l generalizing i with
  | nil => simp at h
  | cons a t ih =>
    cases i with
    | zero => rfl
    | succ n => exact ih n (by simpa using h)

theorem getD_set_other {α : Type} (l : List α) {i j : Nat} (x : α) (d : α) (h : i ≠ j) :
    (l.set i x).getD j d = l.getD j d := by
  induction l generalizing i j with
  | nil => rfl
  | cons a t ih =>
    cases i with
    | zero =>
      cases j with
      | zero => exact absurd rfl h
      | succ m => rfl
    | succ n =>
      cases j with
      | zero => rfl
      | succ m => exact ih (fun hc => h (by omega))

theorem getD_replicate_self {α : Type} {n i : Nat} (x d : α) (h : i < n) :
    (List.replicate n x).getD i d = x := by
  induction n generalizing i with
  | zero => simp at h
  | succ m ih =>
    cases i with
    | zero => rfl
    | succ k => exact ih (by omega)

theorem sum_set_add_one (cnt : List Nat) (j : Nat) (h : j < cnt.length) :
    (cnt.set j (cnt.getD j 0 + 1)).sum = cnt.sum + 1 := by
  induction cnt generalizing j with
  | nil => simp at h
  | cons a t ih =>
    cases j with
    | zero => simp [List.sum_cons]; omega
    | succ m =>
      show (a :: t.set m (t.getD m 0 + 1)).sum = (a :: t).sum + 1
      rw [List.sum_cons, List.sum_cons, ih m (by simpa using h)]
      omega

theorem binIdx_lt_21 (a : ℚ) : binIdx a < 21 := by
  unfold binIdx
  split <;> omega

theorem binStep_length (m : List HierarchyType) (a : List ℚ) (cnt : List Nat) (i : Nat) :
    (binStep m a cnt i).length = cnt.length := by
  unfold binStep
  split
  · rfl
  · exact List.length_set ..

theorem binFold_length (m : List HierarchyType) (a : List ℚ) (is : List Nat)
    (cnt : List Nat) : (is.foldl (binStep m a) cnt).length = cnt.length := by
  induction is generalizing cnt with
  | nil => rfl
  | cons i t ih => rw [List.foldl_cons, ih, binStep_length]

theorem binFold_sum (m : List HierarchyType) (a : List ℚ) (is : List Nat)
    (cnt : List Nat) (h : cnt.length = 21) :
    (is.foldl (binStep m a) cnt).sum
      = cnt.sum + is.countP (fun i => decide (m.getD i .INVALID_CNTR = .PARENT_CNTR)) := by
  induction is generalizing cnt with
  | nil => simp
  | cons i t ih =>
    rw [List.foldl_cons]
    cases hdec : decide (m.getD i .INVALID_CNTR = .PARENT_CNTR) with
    | false =>
      have hp := of_decide_eq_false hdec
      have hp2 : ¬ m[i]?.getD HierarchyType.INVALID_CNTR = HierarchyType.PARENT_CNTR := by
        simpa using hp
      have hstep : binStep m a cnt i = cnt := by
        unfold binStep
        rw [if_pos hp]
      rw [hstep, ih _ h]
      simp [List.countP_cons, hp2]
    | true =>
      have hp := of_decide_eq_true hdec
      have hp2 : m[i]?.getD HierarchyType.INVALID_CNTR = HierarchyType.PARENT_CNTR := by
        simpa using hp
      have hstep : binStep m a cnt i =
          cnt.set (binIdx (a.getD i 0)) (cnt.getD (binIdx (a.getD i 0)) 0 + 1) := by
        unfold binStep
        rw [if_neg (by simp [hp2])]
      rw [hstep, ih _ ((List.length_set ..).trans h),
        sum_set_add_one _ _ (by rw [h]; exact binIdx_lt_21 _)]
      simp [List.countP_cons, hp2]
      omega

theorem binFold_getD (m : List HierarchyType) (a : List ℚ) (is : List Nat)
    (cnt : List Nat) (h : cnt.length = 21) (j : Nat) :
    (is.foldl (binStep m a) cnt).getD j 0
      = cnt.getD j 0 + is.countP (fun i =>
          decide (m.getD i .INVALID_CNTR = .PARENT_CNTR)
            && decide (binIdx (a.getD i 0) = j)) := by
  induction is generalizing cnt with
  | nil => simp
  | cons i t ih =>
    rw [List.foldl_cons]
    cases hdec : decide (m.getD i .INVALID_CNTR = .PARENT_CNTR) with
    | false =>
      have hp := of_decide_eq_false hdec
      have hp2 : ¬ m[i]?.getD HierarchyType.INVALID_CNTR = HierarchyType.PARENT_CNTR := by
        simpa using hp
      have hstep : binStep m a cnt i = cnt := by
        unfold binStep
        rw [if_pos hp]
      rw [hstep, ih _ h]
      simp [List.countP_cons, hp2]
    | true =>
      have hp := of_decide_eq_true hdec
      have hp2 : m[i]?.getD HierarchyType.INVALID_CNTR = HierarchyType.PARENT_CNTR := by
        simpa using hp
      have hstep : binStep m a cnt i =
          cnt.set (binIdx (a.getD i 0)) (cnt.getD (binIdx (a.getD i 0)) 0 + 1) := by
        unfold binStep
        rw [if_neg (by simp [hp2])]
      cases hdec2 : decide (binIdx (a.getD i 0) = j) with
      | true =>
        have hb := of_decide_eq_true hdec2
        have hb2 : binIdx (a[i]?.getD 0) = j := by
          simpa using hb
        rw [hstep, ih _ ((List.length_set ..).trans h), hb,
          getD_set_same _ _ _ _ (by rw [h]; exact hb ▸ binIdx_lt_21 _)]
        simp [List.countP_cons, hp2, hb2]
        omega
      | false =>
        have hb := of_decide_eq_false hdec2
        have hb2 : ¬ binIdx (a[i]?.getD 0) = j := by
          simpa using hb
        rw [hstep, ih _ ((List.length_set ..).trans h), getD_set_other _ _ _ hb]
        simp [List.countP_cons, hp2, hb2]

/-- C6: the total reported by `binArea` (second loop, lines 268-271) is the
sum of the 21 bin counters, which equals the number of contour indices
labeled `PARENT_CNTR`; every increment targets a bin index strictly below
`NUM_AREA_BINS = 21`, overflow areas being clamped into the last bin. -/
theorem binArea_conservation (contour_mask : List HierarchyType) (contour_area : List ℚ) :
    (binArea contour_mask contour_area).2 = (binArea contour_mask contour_area).1.sum
    ∧ (binArea contour_mask contour_area).1.sum
        = (List.range contour_mask.length).countP
            (fun i => decide (contour_mask.getD i .INVALID_CNTR = .PARENT_CNTR))
    ∧ (binArea contour_mask contour_area).1.length = 21
    ∧ (∀ a : ℚ, binIdx a < 21)
    ∧ (∀ a : ℚ, 21 ≤ (roundHalfAway a).toNat / 25 → binIdx a = 20) := by
  refine ⟨rfl, ?_, ?_, binIdx_lt_21, ?_⟩
  · rw [binArea, binFold_sum _ _ _ _ (List.length_replicate ..)]
    simp
  · rw [binArea, binFold_length, List.length_replicate]
  · intro a ha
    unfold binIdx
    rw [if_neg (by omega)]

/-- C7: for every index labeled accepted, `binArea` increments exactly the
bin `floor(round(a)/25)` clamped to the last bin (index 20) when it would
reach or exceed 21; `round` is C `round()`, half away from zero.  Each of
the 21 counters equals the number of accepted indices mapping to it. -/
theorem binArea_bin_index (contour_mask : List HierarchyType) (contour_area : List ℚ)
    (j : Nat) (hj : j < 21) :
    (binArea contour_mask contour_area).1.getD j 0
      = (List.range contour_mask.length).countP (fun i =>
          decide (contour_mask.getD i .INVALID_CNTR = .PARENT_CNTR)
            && decide (binIdx (contour_area.getD i 0) = j))
    ∧ (∀ a : ℚ, binIdx a = min ((roundHalfAway a).toNat / 25) 20) := by
  constructor
  · rw [binArea, binFold_getD _ _ _ _ (List.length_replicate ..),
      getD_replicate_self _ _ hj, Nat.zero_add]
  · intro a
    unfold binIdx
    split <;> omega

theorem binArea_bin_index_witness :
    (binArea [HierarchyType.PARENT_CNTR] [(100 : ℚ)]).1.getD 4 0
      = (List.range (List.length [HierarchyType.PARENT_CNTR])).countP (fun i =>
          decide (List.getD [HierarchyType.PARENT_CNTR] i .INVALID_CNTR = .PARENT_CNTR)
            && decide (binIdx (List.getD [(100 : ℚ)] i 0) = 4))
    ∧ (∀ a : ℚ, binIdx a = min ((roundHalfAway a).toNat / 25) 20) :=
  binArea_bin_index [HierarchyType.PARENT_CNTR] [(100 : ℚ)] 4 (by decide)

/-- C4: evaluation of both classifiers at a size-filter-passing contour
whose rasterization is empty (`countNonZero(drawing) = 0`).  The source
has no guard: the float quotient `0.0f/0.0f` is an IEEE NaN, `NaN < thr`
is false, and the contour lands in the *target* bucket — not "other" as
the documented policy requires. -/
theorem degenerate_contour_lands_in_target :
    classifyMicroglialCells [degenerateCntr] smallMask = ([degenerateCntr], [])
    ∧ classifyNeuralCells [degenerateCntr] smallMask = ([degenerateCntr], []) := by
  with_unfolding_all decide

/-- C8: for every channel specifier outside the five `ChannelType`
enumerators the `default` branch reports failure to the caller and writes
no mask (`none`); for each of the five recognized specifiers the function
computes and returns an enhanced mask (`some`). -/
theorem enhanceImage_channel_contract (gaussianBlur : Img → Img) (src : Img)
    (channel_type : Nat) :
    (5 ≤ channel_type → enhanceImage gaussianBlur src channel_type = none)
    ∧ (channel_type < 5 →
        ∃ mask : Img, enhanceImage gaussianBlur src channel_type = some mask) := by
  constructor
  · intro h5
    match channel_type, h5 with
    | n + 5, _ => rfl
  · intro h5
    match channel_type, h5 with
    | 0, _ => exact ⟨_, rfl⟩
    | 1, _ => exact ⟨_, rfl⟩
    | 2, _ => exact ⟨_, rfl⟩
    | 3, _ => exact ⟨_, rfl⟩
    | 4, _ => exact ⟨_, rfl⟩

theorem enhanceImage_channel_contract_witness :
    enhanceImage (fun i => i) (fun _ => 0) 7 = none
    ∧ ∃ mask : Img, enhanceImage (fun i => i) (fun _ => 0) 2 = some mask :=
  ⟨(enhanceImage_channel_contract (fun i => i) (fun _ => 0) 7).1 (by decide),
   (enhanceImage_channel_contract (fun i => i) (fun _ => 0) 2).2 (by decide)⟩

theorem stateAfter_zero (min_area : ℚ) (areas : List ℚ) (hier : List Vec4) :
    stateAfter min_area areas hier 0 = initState areas.length := rfl

theorem stateAfter_succ (min_area : ℚ) (areas : List ℚ) (hier : List Vec4) (k : Nat) :
    stateAfter min_area areas hier (k + 1)
      = contourStep min_area areas hier (stateAfter min_area areas hier k) k := by
  unfold stateAfter
  rw [List.range_succ, List.foldl_append, List.foldl_cons, List.foldl_nil]

theorem contourCalc_eq_stateAfter (min_area : ℚ) (areas : List ℚ) (hier : List Vec4) :
    contourCalc min_area areas hier = stateAfter min_area areas hier areas.length := rfl

theorem contourStep_eq (min_area : ℚ) (areas : List ℚ) (hier : List Vec4)
    (st : CCState) (k : Nat) :
    contourStep min_area areas hier st k
      = if acceptedRun min_area areas hier k = true
          then acceptState areas hier st k else st := by
  unfold contourStep acceptedRun isExternalCntr
  by_cases h1 : (-1 : Int) < (hget hier k).parent
  · rw [if_pos h1]
    simp [h1]
  · rw [if_neg h1]
    by_cases h2 : areaAt areas k < min_area
    · rw [if_pos h2]
      simp [h1, h2]
    · rw [if_neg h2]
      by_cases h3 : min_area ≤
          areaAt areas k - (holeWalk areas hier hier.length (hget hier k).child).2
      · rw [if_pos h3]
        simp [h1, h2, h3]
      · rw [if_neg h3]
        simp [h1, h2, h3]

theorem streamState_succ (s m : Nat) :
    streamState s (m + 1) = streamState (drawColor s).2 m := rfl

theorem colorStream_succ (s m : Nat) :
    colorStream s (m + 1) = (drawColor s).1 :: colorStream (drawColor s).2 m := rfl

theorem streamState_succ_last (s : Nat) (m : Nat) :
    streamState s (m + 1) = (drawColor (streamState s m)).2 := by
  induction m generalizing s with
  | zero => rfl
  | succ m ih =>
    rw [streamState_succ, ih, ← streamState_succ]

theorem colorStream_snoc (s : Nat) (m : Nat) :
    colorStream s (m + 1) = colorStream s m ++ [(drawColor (streamState s m)).1] := by
  induction m generalizing s with
  | zero => rfl
  | succ m ih =>
    rw [colorStream_succ, ih, ← streamState_succ, colorStream_succ, List.cons_append]

theorem stateAfter_colors_rng (min_area : ℚ) (areas : List ℚ) (hier : List Vec4)
    (k : Nat) :
    (stateAfter min_area areas hier k).colors
        = colorStream 12345 ((List.range k).countP (acceptedRun min_area areas hier))
    ∧ (stateAfter min_area areas hier k).rng_state
        = streamState 12345 ((List.range k).countP (acceptedRun min_area areas hier)) := by
  induction k with
  | zero => exact ⟨rfl, rfl⟩
  | succ k ih =>
    rw [stateAfter_succ, contourStep_eq, List.range_succ, List.countP_append]
    cases hacc : acceptedRun min_area areas hier k with
    | false =>
      rw [if_neg (by simp [hacc])]
      simpa [hacc] using ih
    | true =>
      rw [if_pos rfl]
      have hcount : (List.countP (acceptedRun min_area areas hier) [k]) = 1 := by
        simp [List.countP_cons, hacc]
      rw [hcount]
      unfold acceptState
      constructor
      · show (stateAfter min_area areas hier k).colors
            ++ [(drawColor (stateAfter min_area areas hier k).rng_state).1] = _
        rw [ih.1, ih.2, colorStream_snoc]
      · show (drawColor (stateAfter min_area areas hier k).rng_state).2 = _
        rw [ih.2, streamState_succ_last]

theorem holeWalk_eq_chain (areas : List ℚ) (hier : List Vec4) :
    ∀ (fuel : Nat) (idx : Int) (l : List Nat),
      chainOpt hier fuel idx = some l →
      holeWalk areas hier fuel idx = (nzHoles areas l, holeAreaSum areas l) := by
  intro fuel
  induction fuel with
  | zero =>
    intro idx l hc
    unfold chainOpt at hc
    unfold holeWalk
    by_cases hidx : (-1 : Int) < idx
    · rw [if_pos hidx] at hc
      exact absurd hc (by simp)
    · rw [if_neg hidx] at hc
      cases hc
      rfl
  | succ fuel ih =>
    intro idx l hc
    unfold chainOpt at hc
    unfold holeWalk
    by_cases hidx : (-1 : Int) < idx
    · rw [if_pos hidx] at hc
      rw [if_pos hidx]
      obtain ⟨t, ht, rfl⟩ := Option.map_eq_some'.mp hc
      show (if areaAt areas idx.toNat ≠ 0
          then (idx.toNat :: (holeWalk areas hier fuel (hget hier idx.toNat).next).1,
            areaAt areas idx.toNat
              + (holeWalk areas hier fuel (hget hier idx.toNat).next).2)
          else holeWalk areas hier fuel (hget hier idx.toNat).next)
        = (nzHoles areas (idx.toNat :: t), holeAreaSum areas (idx.toNat :: t))
      rw [ih _ _ ht]
      by_cases hz : areaAt areas idx.toNat ≠ 0
      · rw [if_pos hz]
        simp only [nzHoles, holeAreaSum, List.filter_cons]
        rw [if_pos (by simpa using hz)]
        simp
      · rw [if_neg hz]
        simp only [nzHoles, holeAreaSum, List.filter_cons]
        rw [if_neg (by simpa using hz)]
    · rw [if_neg hidx] at hc
      cases hc
      rw [if_neg hidx]
      rfl

theorem hierWf_len {areas : List ℚ} {hier : List Vec4}
    (hwf : hierWf areas hier = true) : hier.length = areas.length := by
  unfold hierWf at hwf
  exact of_decide_eq_true (Bool.and_elim_left hwf)

theorem hierWf_chain {areas : List ℚ} {hier : List Vec4}
    (hwf : hierWf areas hier = true) (i : Nat) (hi : i < areas.length) :
    chainOpt hier hier.length (hget hier i).child = some (chainOf hier i)
    ∧ (chainOf hier i).Nodup
    ∧ ∀ j ∈ chainOf hier i, j < areas.length ∧ (hget hier j).parent = (i : Int) := by
  unfold hierWf at hwf
  have hall := Bool.and_elim_right hwf
  rw [List.all_eq_true] at hall
  have hwfi : wfAt areas hier i = true := hall i (List.mem_range.mpr hi)
  unfold wfAt at hwfi
  rcases hcase : chainOpt hier hier.length (hget hier i).child with _ | l
  · rw [hcase] at hwfi
    exact absurd hwfi (by simp)
  · rw [hcase] at hwfi
    have hc : chainOf hier i = l := by
      unfold chainOf
      rw [hcase]
      rfl
    rw [hc]
    refine ⟨rfl, of_decide_eq_true (Bool.and_elim_left hwfi), ?_⟩
    intro j hj
    have := (List.all_eq_true.mp (Bool.and_elim_right hwfi)) j hj
    exact ⟨of_decide_eq_true (Bool.and_elim_left this),
      of_decide_eq_true (Bool.and_elim_right this)⟩

theorem walk_eq_of_wf {areas : List ℚ} {hier : List Vec4}
    (hwf : hierWf areas hier = true) (i : Nat) (hi : i < areas.length) :
    holeWalk areas hier hier.length (hget hier i).child
      = (nzHoles areas (chainOf hier i), holeAreaSum areas (chainOf hier i)) :=
  holeWalk_eq_chain areas hier hier.length _ _ (hierWf_chain hwf i hi).1

theorem acceptedRun_eq_acceptedCntr {areas : List ℚ} {hier : List Vec4}
    (hwf : hierWf areas hier = true) (min_area : ℚ) (i : Nat) (hi : i < areas.length) :
    acceptedRun min_area areas hier i = acceptedCntr min_area areas hier i := by
  unfold acceptedRun acceptedCntr netArea
  rw [walk_eq_of_wf hwf i hi]

theorem setChildren_length (holes : List Nat) (v : List HierarchyType) :
    (setChildren holes v).length = v.length := by
  induction holes generalizing v with
  | nil => rfl
  | cons j t ih =>
    show (setChildren t (v.set j .CHILD_CNTR)).length = _
    rw [ih, List.length_set]

theorem setChildren_getD (holes : List Nat) (v : List HierarchyType) (pos : Nat)
    (hh : ∀ j ∈ holes, j < v.length) :
    (setChildren holes v).getD pos .INVALID_CNTR
      = if pos ∈ holes then .CHILD_CNTR else v.getD pos .INVALID_CNTR := by
  induction holes generalizing v with
  | nil => simp [setChildren]
  | cons j t ih =>
    show (setChildren t (v.set j .CHILD_CNTR)).getD pos .INVALID_CNTR = _
    rw [ih _ (fun x hx => by rw [List.length_set]; exact hh x (List.mem_cons_of_mem j hx))]
    by_cases hpt : pos ∈ t
    · rw [if_pos hpt, if_pos (List.mem_cons_of_mem j hpt)]
    · rw [if_neg hpt]
      by_cases hpj : pos = j
      · subst hpj
        rw [getD_set_same _ _ _ _ (hh pos (List.mem_cons_self ..)),
          if_pos (List.mem_cons_self ..)]
      · rw [getD_set_other _ _ _ (fun hcontra => hpj hcontra.symm),
          if_neg (by simp [hpj, hpt])]

theorem stateAfter_lengths (min_area : ℚ) (areas : List ℚ) (hier : List Vec4)
    (k : Nat) :
    (stateAfter min_area areas hier k).validity_mask.length = areas.length
    ∧ (stateAfter min_area areas hier k).parent_area.length = areas.length := by
  induction k with
  | zero => exact ⟨List.length_replicate .., List.length_replicate ..⟩
  | succ k ih =>
    rw [stateAfter_succ, contourStep_eq]
    cases hacc : acceptedRun min_area areas hier k
    · rw [if_neg (by simp)]
      exact ih
    · rw [if_pos rfl]
      constructor
      · simp only [acceptState]
        rw [setChildren_length, List.length_set]
        exact ih.1
      · simp only [acceptState]
        rw [List.length_set]
        exact ih.2

theorem acceptedCntr_false_of_parent (min_area : ℚ) {areas : List ℚ} {hier : List Vec4}
    (hwf : hierWf areas hier = true) {i pos : Nat} (hi : i < areas.length)
    (hmem : pos ∈ chainOf hier i) :
    acceptedCntr min_area areas hier pos = false := by
  have hpar := ((hierWf_chain hwf i hi).2.2 pos hmem).2
  unfold acceptedCntr isExternalCntr
  rw [hpar, decide_eq_true (by omega : (-1 : Int) < (i : Int))]
  simp

theorem self_not_mem_chain {areas : List ℚ} {hier : List Vec4}
    (hwf : hierWf areas hier = true) {k : Nat} (hk : k < areas.length)
    (hext : isExternalCntr hier k = true) : k ∉ chainOf hier k := by
  intro hmem
  have hpar := ((hierWf_chain hwf k hk).2.2 k hmem).2
  unfold isExternalCntr at hext
  rw [hpar] at hext
  rw [decide_eq_true (by omega : (-1 : Int) < (k : Int))] at hext
  exact absurd hext (by simp)

theorem stateAfter_validity_char (min_area : ℚ) (areas : List ℚ) (hier : List Vec4)
    (hwf : hierWf areas hier = true) :
    ∀ k, k ≤ areas.length → ∀ pos, pos < areas.length →
      (stateAfter min_area areas hier k).validity_mask.getD pos .INVALID_CNTR
        = if (acceptedCntr min_area areas hier pos && decide (pos < k)) = true
            then .PARENT_CNTR
          else if ((List.range k).any (fun i =>
                acceptedCntr min_area areas hier i
                  && decide (pos ∈ nzHoles areas (chainOf hier i)))) = true
            then .CHILD_CNTR
          else .INVALID_CNTR := by
  intro k
  induction k with
  | zero =>
    intro _ pos hpos
    show (List.replicate areas.length HierarchyType.INVALID_CNTR).getD pos
        .INVALID_CNTR = _
    rw [getD_replicate_self _ _ hpos]
    simp
  | succ k ih =>
    intro hk pos hpos
    have hkn : k < areas.length := by omega
    have ihp := ih (by omega) pos hpos
    rw [stateAfter_succ, contourStep_eq,
      acceptedRun_eq_acceptedCntr hwf min_area k hkn]
    cases hacc : acceptedCntr min_area areas hier k with
    | false =>
      rw [if_neg Bool.false_ne_true, ihp]
      have hc1 : (acceptedCntr min_area areas hier pos && decide (pos < k + 1))
          = (acceptedCntr min_area areas hier pos && decide (pos < k)) := by
        by_cases hpk : pos = k
        · subst hpk
          rw [hacc, Bool.false_and, Bool.false_and]
        · rw [decide_eq_decide.mpr (by omega : pos < k + 1 ↔ pos < k)]
      have hc2 : ((List.range (k + 1)).any (fun i =>
            acceptedCntr min_area areas hier i
              && decide (pos ∈ nzHoles areas (chainOf hier i))))
          = ((List.range k).any (fun i =>
            acceptedCntr min_area areas hier i
              && decide (pos ∈ nzHoles areas (chainOf hier i)))) := by
        rw [List.range_succ, List.any_append]
        simp [hacc]
      rw [hc1, hc2]
    | true =>
      rw [if_pos rfl]
      have hchain := hierWf_chain hwf k hkn
      have hwalk := walk_eq_of_wf hwf k hkn
      have hext : isExternalCntr hier k = true :=
        Bool.and_elim_left (Bool.and_elim_left hacc)
      simp only [acceptState, hwalk]
      rw [setChildren_getD _ _ _ (by
        intro j hj
        rw [List.length_set, (stateAfter_lengths min_area areas hier k).1]
        exact (hchain.2.2 j (List.mem_filter.mp hj).1).1)]
      by_cases hmem : pos ∈ nzHoles areas (chainOf hier k)
      · rw [if_pos hmem]
        have hposacc : acceptedCntr min_area areas hier pos = false :=
          acceptedCntr_false_of_parent min_area hwf hkn (List.mem_filter.mp hmem).1
        rw [hposacc, Bool.false_and, if_neg Bool.false_ne_true]
        have hany : ((List.range (k + 1)).any (fun i =>
              acceptedCntr min_area areas hier i
                && decide (pos ∈ nzHoles areas (chainOf hier i)))) = true := by
          rw [List.any_eq_true]
          refine ⟨k, List.mem_range.mpr (by omega), ?_⟩
          rw [hacc, Bool.true_and]
          exact decide_eq_true hmem
        rw [if_pos hany]
      · rw [if_neg hmem]
        by_cases hpk : pos = k
        · subst hpk
          rw [getD_set_same _ _ _ _
            (by rw [(stateAfter_lengths min_area areas hier pos).1]; exact hpos)]
          rw [if_pos (by rw [hacc]; simp)]
        · rw [getD_set_other _ _ _ (fun h => hpk h.symm), ihp]
          have hc1 : (acceptedCntr min_area areas hier pos && decide (pos < k + 1))
              = (acceptedCntr min_area areas hier pos && decide (pos < k)) := by
            rw [decide_eq_decide.mpr (by omega : pos < k + 1 ↔ pos < k)]
          have hc2 : ((List.range (k + 1)).any (fun i =>
                acceptedCntr min_area areas hier i
                  && decide (pos ∈ nzHoles areas (chainOf hier i))))
              = ((List.range k).any (fun i =>
                acceptedCntr min_area areas hier i
                  && decide (pos ∈ nzHoles areas (chainOf hier i)))) := by
            rw [List.range_succ, List.any_append]
            have hfk : (acceptedCntr min_area areas hier k
                && decide (pos ∈ nzHoles areas (chainOf hier k))) = false := by
              rw [decide_eq_false hmem, Bool.and_false]
            simp [hfk]
          rw [hc1, hc2]

theorem stateAfter_parea_char (min_area : ℚ) (areas : List ℚ) (hier : List Vec4)
    (hwf : hierWf areas hier = true) :
    ∀ k, k ≤ areas.length → ∀ pos, pos < areas.length →
      (stateAfter min_area areas hier k).parent_area.getD pos 0
        = if (acceptedCntr min_area areas hier pos && decide (pos < k)) = true
            then netArea areas hier pos else 0 := by
  intro k
  induction k with
  | zero =>
    intro _ pos hpos
    show (List.replicate areas.length (0 : ℚ)).getD pos 0 = _
    rw [getD_replicate_self _ _ hpos]
    simp
  | succ k ih =>
    intro hk pos hpos
    have hkn : k < areas.length := by omega
    have ihp := ih (by omega) pos hpos
    rw [stateAfter_succ, contourStep_eq,
      acceptedRun_eq_acceptedCntr hwf min_area k hkn]
    cases hacc : acceptedCntr min_area areas hier k with
    | false =>
      rw [if_neg Bool.false_ne_true, ihp]
      have hc1 : (acceptedCntr min_area areas hier pos && decide (pos < k + 1))
          = (acceptedCntr min_area areas hier pos && decide (pos < k)) := by
        by_cases hpk : pos = k
        · subst hpk
          rw [hacc, Bool.false_and, Bool.false_and]
        · rw [decide_eq_decide.mpr (by omega : pos < k + 1 ↔ pos < k)]
      rw [hc1]
    | true =>
      rw [if_pos rfl]
      have hwalk := walk_eq_of_wf hwf k hkn
      simp only [acceptState, hwalk]
      by_cases hpk : pos = k
      · subst hpk
        rw [getD_set_same _ _ _ _
          (by rw [(stateAfter_lengths min_area areas hier pos).2]; exact hpos)]
        rw [if_pos (by rw [hacc]; simp)]
        rfl
      · rw [getD_set_other _ _ _ (fun h => hpk h.symm), ihp]
        have hc1 : (acceptedCntr min_area areas hier pos && decide (pos < k + 1))
            = (acceptedCntr min_area areas hier pos && decide (pos < k)) := by
          rw [decide_eq_decide.mpr (by omega : pos < k + 1 ↔ pos < k)]
        rw [hc1]

theorem accepted_label_store (min_area : ℚ) (areas : List ℚ) (hier : List Vec4)
    (hwf : hierWf areas hier = true) (i : Nat) (hi : i < areas.length)
    (hacc : acceptedCntr min_area areas hier i = true) :
    (contourCalc min_area areas hier).validity_mask.getD i .INVALID_CNTR = .PARENT_CNTR
    ∧ (contourCalc min_area areas hier).parent_area.getD i 0 = netArea areas hier i := by
  rw [contourCalc_eq_stateAfter]
  constructor
  · rw [stateAfter_validity_char min_area areas hier hwf areas.length le_rfl i hi]
    rw [if_pos (by rw [hacc, decide_eq_true hi]; rfl)]
  · rw [stateAfter_parea_char min_area areas hier hwf areas.length le_rfl i hi]
    rw [if_pos (by rw [hacc, decide_eq_true hi]; rfl)]

theorem unreached_stays_invalid (min_area : ℚ) (areas : List ℚ) (hier : List Vec4)
    (hwf : hierWf areas hier = true) (p : Nat) (hp : p < areas.length)
    (hpacc : acceptedCntr min_area areas hier p = false)
    (hnochain : ∀ q, q < areas.length →
      ¬(acceptedCntr min_area areas hier q = true
        ∧ p ∈ nzHoles areas (chainOf hier q))) :
    (contourCalc min_area areas hier).validity_mask.getD p .INVALID_CNTR
      = .INVALID_CNTR := by
  rw [contourCalc_eq_stateAfter,
    stateAfter_validity_char min_area areas hier hwf areas.length le_rfl p hp,
    if_neg (by rw [hpacc, Bool.false_and]; exact Bool.false_ne_true),
    if_neg (by
      intro hany
      obtain ⟨q, hqmem, hfq⟩ := List.any_eq_true.mp hany
      rw [Bool.and_eq_true] at hfq
      exact hnochain q (List.mem_range.mp hqmem)
        ⟨hfq.1, of_decide_eq_true hfq.2⟩)]

theorem external_not_in_chain {areas : List ℚ} {hier : List Vec4}
    (hwf : hierWf areas hier = true) {p : Nat}
    (hextp : isExternalCntr hier p = true) :
    ∀ q, q < areas.length → p ∉ chainOf hier q := by
  intro q hq hmem
  have hpar := ((hierWf_chain hwf q hq).2.2 p hmem).2
  unfold isExternalCntr at hextp
  rw [hpar, decide_eq_true (by omega : (-1 : Int) < (q : Int))] at hextp
  exact absurd hextp (by simp)

/-- C1: in full-hierarchy mode, for every external contour `i` (parent
link `-1`) whose outer area reaches the minimum-area threshold, the loop
computes net area `= outer area − Σ areas of i's immediate nonzero-area
hole children`; when the net area still reaches the threshold, `i` is
labeled `PARENT_CNTR` with exactly the net area stored for it, every
collected nonzero-area hole is labeled `CHILD_CNTR` with no area record of
its own, and every contour that is neither an accepted parent nor a
collected hole of an accepted parent keeps the label `INVALID_CNTR`. -/
theorem extractor_hierarchy_labeling (min_area : ℚ) (areas : List ℚ) (hier : List Vec4)
    (hwf : hierWf areas hier = true) (i : Nat) (hi : i < areas.length)
    (hext : isExternalCntr hier i = true)
    (hbig : min_area ≤ areaAt areas i)
    (hnet : min_area ≤ netArea areas hier i) :
    (contourCalc min_area areas hier).validity_mask.getD i .INVALID_CNTR = .PARENT_CNTR
    ∧ (contourCalc min_area areas hier).parent_area.getD i 0 = netArea areas hier i
    ∧ (∀ j ∈ nzHoles areas (chainOf hier i),
        (contourCalc min_area areas hier).validity_mask.getD j .INVALID_CNTR
            = .CHILD_CNTR
        ∧ (contourCalc min_area areas hier).parent_area.getD j 0 = 0)
    ∧ (∀ p, p < areas.length →
        acceptedCntr min_area areas hier p = false →
        (∀ q, q < areas.length →
          ¬(acceptedCntr min_area areas hier q = true
            ∧ p ∈ nzHoles areas (chainOf hier q))) →
        (contourCalc min_area areas hier).validity_mask.getD p .INVALID_CNTR
          = .INVALID_CNTR) := by
  have hacc : acceptedCntr min_area areas hier i = true := by
    unfold acceptedCntr
    rw [hext, decide_eq_false (not_lt.mpr hbig), decide_eq_true hnet]
    rfl
  obtain ⟨hv, hp⟩ := accepted_label_store min_area areas hier hwf i hi hacc
  refine ⟨hv, hp, ?_, ?_⟩
  · intro j hj
    have hjchain : j ∈ chainOf hier i := (List.mem_filter.mp hj).1
    have hjn : j < areas.length := ((hierWf_chain hwf i hi).2.2 j hjchain).1
    have hjacc : acceptedCntr min_area areas hier j = false :=
      acceptedCntr_false_of_parent min_area hwf hi hjchain
    constructor
    · rw [contourCalc_eq_stateAfter,
        stateAfter_validity_char min_area areas hier hwf areas.length le_rfl j hjn,
        if_neg (by rw [hjacc, Bool.false_and]; exact Bool.false_ne_true),
        if_pos (by
          rw [List.any_eq_true]
          refine ⟨i, List.mem_range.mpr hi, ?_⟩
          rw [hacc, Bool.true_and]
          exact decide_eq_true hj)]
    · rw [contourCalc_eq_stateAfter,
        stateAfter_parea_char min_area areas hier hwf areas.length le_rfl j hjn,
        if_neg (by rw [hjacc, Bool.false_and]; exact Bool.false_ne_true)]
  · exact fun p hp hpacc hnochain =>
      unreached_stays_invalid min_area areas hier hwf p hp hpacc hnochain

theorem extractor_hierarchy_labeling_witness :
    (contourCalc 1 [400, 25] [⟨-1, -1, 1, -1⟩, ⟨-1, -1, -1, 0⟩]).validity_mask.getD 0
        .INVALID_CNTR = .PARENT_CNTR
    ∧ (contourCalc 1 [400, 25] [⟨-1, -1, 1, -1⟩, ⟨-1, -1, -1, 0⟩]).parent_area.getD 0 0
        = netArea [400, 25] [⟨-1, -1, 1, -1⟩, ⟨-1, -1, -1, 0⟩] 0
    ∧ (∀ j ∈ nzHoles [400, 25] (chainOf [⟨-1, -1, 1, -1⟩, ⟨-1, -1, -1, 0⟩] 0),
        (contourCalc 1 [400, 25] [⟨-1, -1, 1, -1⟩, ⟨-1, -1, -1, 0⟩]).validity_mask.getD j
            .INVALID_CNTR = .CHILD_CNTR
        ∧ (contourCalc 1 [400, 25]
            [⟨-1, -1, 1, -1⟩, ⟨-1, -1, -1, 0⟩]).parent_area.getD j 0 = 0)
    ∧ (∀ p, p < List.length [(400 : ℚ), 25] →
        acceptedCntr 1 [400, 25] [⟨-1, -1, 1, -1⟩, ⟨-1, -1, -1, 0⟩] p = false →
        (∀ q, q < List.length [(400 : ℚ), 25] →
          ¬(acceptedCntr 1 [400, 25] [⟨-1, -1, 1, -1⟩, ⟨-1, -1, -1, 0⟩] q = true
            ∧ p ∈ nzHoles [400, 25]
                (chainOf [⟨-1, -1, 1, -1⟩, ⟨-1, -1, -1, 0⟩] q))) →
        (contourCalc 1 [400, 25] [⟨-1, -1, 1, -1⟩, ⟨-1, -1, -1, 0⟩]).validity_mask.getD p
          .INVALID_CNTR = .INVALID_CNTR) :=
  extractor_hierarchy_labeling 1 [400, 25] [⟨-1, -1, 1, -1⟩, ⟨-1, -1, -1, 0⟩]
    (by with_unfolding_all decide) 0 (by decide) (by decide)
    (by with_unfolding_all decide) (by with_unfolding_all decide)

/-- C5: a shape whose net area equals the minimum-area threshold exactly
is labeled accepted (the outer-area pre-check of line 164 and the net-area
check of line 181 both pass at equality) with the threshold value stored
as its area; a shape whose net area is one unit below keeps no label
(stays `INVALID_CNTR`), stores no area, and is excluded from the histogram
total, which only counts `PARENT_CNTR` labels. -/
theorem area_threshold_boundary (min_area : ℚ) (areas : List ℚ) (hier : List Vec4)
    (hwf : hierWf areas hier = true) (i : Nat) (hi : i < areas.length)
    (hext : isExternalCntr hier i = true)
    (hbig : min_area ≤ areaAt areas i) :
    (netArea areas hier i = min_area →
      (contourCalc min_area areas hier).validity_mask.getD i .INVALID_CNTR
          = .PARENT_CNTR
      ∧ (contourCalc min_area areas hier).parent_area.getD i 0 = min_area)
    ∧ (netArea areas hier i = min_area - 1 →
      (contourCalc min_area areas hier).validity_mask.getD i .INVALID_CNTR
          = .INVALID_CNTR
      ∧ (contourCalc min_area areas hier).parent_area.getD i 0 = 0
      ∧ (binArea (contourCalc min_area areas hier).validity_mask
            (contourCalc min_area areas hier).parent_area).2
          = (List.range
              (contourCalc min_area areas hier).validity_mask.length).countP
              (fun p => decide
                ((contourCalc min_area areas hier).validity_mask.getD p
                    .INVALID_CNTR = .PARENT_CNTR))
      ∧ (contourCalc min_area areas hier).validity_mask.getD i .INVALID_CNTR
          ≠ .PARENT_CNTR) := by
  constructor
  · intro hnet
    have hacc : acceptedCntr min_area areas hier i = true := by
      unfold acceptedCntr
      rw [hext, decide_eq_false (not_lt.mpr hbig),
        decide_eq_true (le_of_eq hnet.symm)]
      rfl
    obtain ⟨hv, hp⟩ := accepted_label_store min_area areas hier hwf i hi hacc
    exact ⟨hv, by rw [hp, hnet]⟩
  · intro hnet
    have hacc : acceptedCntr min_area areas hier i = false := by
      unfold acceptedCntr
      rw [decide_eq_false (by rw [hnet]; intro hcon; linarith : ¬ min_area ≤ netArea areas hier i),
        Bool.and_false]
    have hinv : (contourCalc min_area areas hier).validity_mask.getD i .INVALID_CNTR
        = .INVALID_CNTR := by
      refine unreached_stays_invalid min_area areas hier hwf i hi hacc ?_
      intro q hq hcon
      exact external_not_in_chain hwf hext q hq (List.mem_filter.mp hcon.2).1
    refine ⟨hinv, ?_, ?_, ?_⟩
    · rw [contourCalc_eq_stateAfter,
        stateAfter_parea_char min_area areas hier hwf areas.length le_rfl i hi,
        if_neg (by rw [hacc, Bool.false_and]; exact Bool.false_ne_true)]
    · rw [binArea, binFold_sum _ _ _ _ (List.length_replicate ..)]
      simp
    · rw [hinv]
      exact fun hcon => by cases hcon

theorem area_threshold_boundary_witness :
    ((contourCalc 1 [26, 25] [⟨-1, -1, 1, -1⟩, ⟨-1, -1, -1, 0⟩]).validity_mask.getD 0
        .INVALID_CNTR = .PARENT_CNTR
      ∧ (contourCalc 1 [26, 25] [⟨-1, -1, 1, -1⟩, ⟨-1, -1, -1, 0⟩]).parent_area.getD 0 0
        = 1)
    ∧ ((contourCalc 1 [25, 25] [⟨-1, -1, 1, -1⟩, ⟨-1, -1, -1, 0⟩]).validity_mask.getD 0
        .INVALID_CNTR = .INVALID_CNTR
      ∧ (contourCalc 1 [25, 25] [⟨-1, -1, 1, -1⟩, ⟨-1, -1, -1, 0⟩]).parent_area.getD 0 0
        = 0
      ∧ (binArea (contourCalc 1 [25, 25]
            [⟨-1, -1, 1, -1⟩, ⟨-1, -1, -1, 0⟩]).validity_mask
            (contourCalc 1 [25, 25] [⟨-1, -1, 1, -1⟩, ⟨-1, -1, -1, 0⟩]).parent_area).2
          = (List.range (contourCalc 1 [25, 25]
              [⟨-1, -1, 1, -1⟩, ⟨-1, -1, -1, 0⟩]).validity_mask.length).countP
              (fun p => decide ((contourCalc 1 [25, 25]
                  [⟨-1, -1, 1, -1⟩, ⟨-1, -1, -1, 0⟩]).validity_mask.getD p
                    .INVALID_CNTR = .PARENT_CNTR))
      ∧ (contourCalc 1 [25, 25] [⟨-1, -1, 1, -1⟩, ⟨-1, -1, -1, 0⟩]).validity_mask.getD 0
          .INVALID_CNTR ≠ .PARENT_CNTR) :=
  ⟨(area_threshold_boundary 1 [26, 25] [⟨-1, -1, 1, -1⟩, ⟨-1, -1, -1, 0⟩]
      (by with_unfolding_all decide) 0 (by decide) (by decide)
      (by with_unfolding_all decide)).1 (by with_unfolding_all decide),
   (area_threshold_boundary 1 [25, 25] [⟨-1, -1, 1, -1⟩, ⟨-1, -1, -1, 0⟩]
      (by with_unfolding_all decide) 0 (by decide) (by decide)
      (by with_unfolding_all decide)).2 (by with_unfolding_all decide)⟩

/-- C9: the extractor and the classifiers are pure functions of their
inputs — two runs on equal inputs give equal hierarchy labels, areas, and
debug colors, and equal bucket assignments; moreover the color sequence
drawn for the accepted parents is exactly the pure stream generated from
the fixed seed 12345 (re-seeded at line 159 on every call), one color per
accepted parent in ascending contour-index order. -/
theorem extractor_classifier_deterministic (min_area : ℚ) (areas : List ℚ)
    (hier : List Vec4) (cs : List Cntr) (mask : Finset Pix) :
    contourCalc min_area areas hier = contourCalc min_area areas hier
    ∧ (contourCalc min_area areas hier).colors
        = colorStream 12345
            ((List.range areas.length).countP (acceptedRun min_area areas hier))
    ∧ (contourCalc min_area areas hier).rng_state
        = streamState 12345
            ((List.range areas.length).countP (acceptedRun min_area areas hier))
    ∧ classifyMicroglialCells cs mask = classifyMicroglialCells cs mask
    ∧ classifyNeuralCells cs mask = classifyNeuralCells cs mask :=
  ⟨rfl, (stateAfter_colors_rng min_area areas hier areas.length).1,
    (stateAfter_colors_rng min_area areas hier areas.length).2, rfl, rfl⟩

end Microglia
